import Mathlib

/-!
Shallow embedding of `src/pagerank.py` (the PageRank estimators) and proofs
about it.  Python `dict`s keyed by page name are modelled as association
lists built by mapping over the corpus key list, so that key sets and
iteration order are represented faithfully; real arithmetic is modelled by
exact rational arithmetic (`ℚ`).  Randomness (`random.choice`,
`random.choices`) is modelled by oracle functions supplied as parameters,
constrained only to return keys of the corpus, which is all the library
guarantees.
-/

/-- Page identifiers (Python dict keys are strings, the file names). -/
abbrev Page := String

/-- A Python dict mapping pages to rationals (a `Distribution` / rank table),
as an association list in key order. -/
abbrev Table := List (Page × ℚ)

/-- The corpus: `pages` is the dict's key list (unique, in insertion order)
and `links p` is the set `corpus[p]` of out-links.  The Python dict's
lookup is total on its keys; claims carry the needed well-formedness
hypotheses (`pages.Nodup`, out-links a subset of the key set). -/
structure Corpus where
  pages : List Page
  links : Page → Finset Page

/-- Dict lookup with default 0: `t[p]`.  All lookups in the source happen on
dicts that contain the key, which the proofs track. -/
def getD : Table → Page → ℚ
  | [], _ => 0
  | (q, v) :: rest, p => if q = p then v else getD rest p

/-- Sum of a dict's values, `sum(t.values())`. -/
def tableSum (t : Table) : ℚ := (t.map Prod.snd).sum

/-- A dict's key list, `list(t.keys())`. -/
def keysOf (t : Table) : List Page := t.map Prod.fst

/-- `transition_model` (src/pagerank.py lines 53-71): if `corpus[page]` is
nonempty, every page gets base probability `(1-d)/len(corpus)` and each
out-link of `page` additionally gets `d/len(corpus[page])`; if `page` is a
sink, every page gets `1/len(corpus)`. -/
def transition_model (corpus : Corpus) (page : Page) (damping_factor : ℚ) : Table :=
  if corpus.links page ≠ ∅ then
    corpus.pages.map (fun link =>
      (link, (1 - damping_factor) / (corpus.pages.length : ℚ) +
        if link ∈ corpus.links page then
          damping_factor / ((corpus.links page).card : ℚ)
        else 0))
  else
    corpus.pages.map (fun link => (link, 1 / (corpus.pages.length : ℚ)))

/-- The initial rank table of `sample_pagerank` (lines 84-86): every page 0. -/
def zeroTable (corpus : Corpus) : Table :=
  corpus.pages.map (fun page => (page, (0 : ℚ)))

/-- One in-place averaging update of the sampling loop (lines 90-91):
`pagerank[page] = ((i-1)*pagerank[page] + cur_pagerank[page])/i` for every
key of `pagerank`. -/
def avgUpdate (i : ℕ) (pagerank cur : Table) : Table :=
  pagerank.map (fun x => (x.1, (((i : ℚ) - 1) * x.2 + getD cur x.1) / (i : ℚ)))

/-- The body of `for i in range(1, n)` (lines 88-92), run over the list of
loop indices.  `picks i t` models `random.choices(list(t.keys()),
list(t.values()), k=1)[0]`: the weighted draw receives the updated table
`t` as its weights. -/
def sampleSteps (corpus : Corpus) (damping_factor : ℚ) (picks : ℕ → Table → Page) :
    List ℕ → Table × Page → Table × Page
  | [], s => s
  | i :: is, s =>
    let cur := transition_model corpus s.2 damping_factor
    let pr := avgUpdate i s.1 cur
    sampleSteps corpus damping_factor picks is (pr, picks i pr)

/-- `sample_pagerank` (lines 75-93).  `start` models the initial
`random.choice(list(corpus.keys()))`; the loop `for i in range(1, n)` is the
fold over `List.range' 1 (n-1)` (empty when `n ≤ 1`, exactly as
`range(1, n)` is). -/
def sample_pagerank (corpus : Corpus) (damping_factor : ℚ) (n : ℕ)
    (start : Page) (picks : ℕ → Table → Page) : Table :=
  (sampleSteps corpus damping_factor picks (List.range' 1 (n - 1))
    (zeroTable corpus, start)).1

/-- The new rank of one page in an update pass of `iterate_pagerank`
(lines 115-121): `(1-d)/len(corpus) + d * sum`, where the sum collects
`pagerank[q]/len(corpus[q])` over pages `q` linking to `page` and
`pagerank[q]/len(corpus)` over sink pages `q`. -/
def newRankOf (corpus : Corpus) (damping_factor : ℚ) (pagerank : Table)
    (page : Page) : ℚ :=
  (1 - damping_factor) / (corpus.pages.length : ℚ) +
    damping_factor * (corpus.pages.map (fun newpage =>
      (if page ∈ corpus.links newpage then
        getD pagerank newpage / ((corpus.links newpage).card : ℚ)
      else 0) +
      (if corpus.links newpage = ∅ then
        getD pagerank newpage / (corpus.pages.length : ℚ)
      else 0))).sum

/-- One full update pass of `iterate_pagerank` (lines 113-121): `newrank`
recomputed for every page from the old snapshot `pagerank`. -/
def iterPass (corpus : Corpus) (damping_factor : ℚ) (pagerank : Table) : Table :=
  corpus.pages.map (fun page => (page, newRankOf corpus damping_factor pagerank page))

/-- The initial ranks of `iterate_pagerank` (lines 109-110): `1/len(corpus)`
for every page. -/
def initRank (corpus : Corpus) : Table :=
  corpus.pages.map (fun page => (page, 1 / (corpus.pages.length : ℚ)))

/-- `iterate_pagerank` (lines 98-128).  The `return pagerank` sits inside the
`while` body, after `pagerank` has been overwritten by `newrank`, so the
function performs exactly one update pass of the uniform initial ranks and
returns it; the `change` flag is computed but never consulted. -/
def iterate_pagerank (corpus : Corpus) (damping_factor : ℚ) : Table :=
  iterPass corpus damping_factor (initRank corpus)

/-- The convergence test of lines 122-125: every page's new rank is within
absolute tolerance 0.001 of its old rank (`math.isclose(..., abs_tol=0.001)`
— for values of this magnitude the relative part of `isclose` is dominated
by the absolute part only when they differ; the test used here is the
absolute-tolerance comparison the spec names). -/
def passConverged (corpus : Corpus) (old new : Table) : Prop :=
  ∀ page ∈ corpus.pages, |getD new page - getD old page| ≤ (1 / 1000 : ℚ)

/-- Errors the Python runtime can raise on the paths modelled here.
`emptyCorpusError` is the hypothetical explicit invalid-input error the spec
asks for; the source never produces it. -/
inductive PyError
  | indexError
  | emptyCorpusError
  deriving DecidableEq

/-- `sample_pagerank` including its one failing operation: line 87's
`random.choice(list(corpus.keys()))` raises `IndexError` when the key list
is empty; otherwise `choose` models that uniform draw and the loop runs. -/
def sample_pagerank_run (corpus : Corpus) (damping_factor : ℚ) (n : ℕ)
    (choose : List Page → Page) (picks : ℕ → Table → Page) : Except PyError Table :=
  if corpus.pages = [] then .error .indexError
  else .ok (sample_pagerank corpus damping_factor n (choose corpus.pages) picks)

/-- `iterate_pagerank` never raises: every division and every subscript in
lines 107-128 sits inside a `for` loop over the corpus (or over `pagerank`,
whose keys are the corpus's), so on the empty dict no division executes and
the function returns the empty dict. -/
def iterate_pagerank_run (corpus : Corpus) (damping_factor : ℚ) :
    Except PyError Table :=
  .ok (iterate_pagerank corpus damping_factor)

/-- The two-page corpus `{A: set(), B: {A}}` of the spec's sink scenario. -/
def corpusAB : Corpus where
  pages := ["A", "B"]
  links := fun p => if p = "B" then {"A"} else ∅

/-- The one-page corpus `{A: set()}`. -/
def corpusA : Corpus where
  pages := ["A"]
  links := fun _ => ∅

/-- The empty corpus `{}`. -/
def corpusEmpty : Corpus where
  pages := []
  links := fun _ => ∅

/-- Looking a key up in a dict built by mapping over a key list returns the
mapped value. -/
lemma getD_map_self (l : List Page) (f : Page → ℚ) (p : Page) (hp : p ∈ l) :
    getD (l.map fun q => (q, f q)) p = f p := by
  induction l with
  | nil => cases hp
  | cons a t ih =>
    simp only [List.map_cons, getD]
    rcases eq_or_ne a p with h | h
    · simp [h]
    · have hp' : p ∈ t := by
        rcases List.mem_cons.mp hp with h' | h'
        · exact absurd h'.symm h
        · exact h'
      simp [h, ih hp']

/-- A dict built by mapping over a key list has exactly that key list. -/
lemma keysOf_map_self (l : List Page) (f : Page → ℚ) :
    keysOf (l.map fun q => (q, f q)) = l := by
  simp [keysOf, List.map_map, Function.comp_def]

/-- The value sum of a dict built by mapping over a key list. -/
lemma tableSum_map_self (l : List Page) (f : Page → ℚ) :
    tableSum (l.map fun q => (q, f q)) = (l.map f).sum := by
  simp [tableSum, List.map_map, Function.comp_def]

/-- Summing `getD` of a mapped dict over its key list gives the value sum. -/
lemma sum_getD_map_self (l : List Page) (f : Page → ℚ) :
    (l.map fun p => getD (l.map fun q => (q, f q)) p).sum = (l.map f).sum := by
  rw [List.map_congr_left fun p hp => getD_map_self l f p hp]

/-- Summing `getD t` over the (duplicate-free) key list of any dict `t`
recovers the sum of `t`'s values. -/
lemma sum_getD (t : Table) (hnd : (keysOf t).Nodup) :
    ((keysOf t).map (getD t)).sum = tableSum t := by
  induction t with
  | nil => simp [keysOf, tableSum]
  | cons x rest ih =>
    obtain ⟨q, v⟩ := x
    have hk : keysOf ((q, v) :: rest) = q :: keysOf rest := by simp [keysOf]
    rw [hk] at hnd ⊢
    have hq : q ∉ keysOf rest := (List.nodup_cons.mp hnd).1
    have hrest : (keysOf rest).Nodup := (List.nodup_cons.mp hnd).2
    have hcongr : (keysOf rest).map (getD ((q, v) :: rest)) =
        (keysOf rest).map (getD rest) := by
      refine List.map_congr_left fun p hp => ?_
      have : q ≠ p := fun h => hq (h ▸ hp)
      simp [getD, this]
    simp only [List.map_cons, List.sum_cons, hcongr, ih hrest]
    simp [getD, tableSum]

/-- `transition_model` written as a single map over the key list. -/
lemma transition_model_eq_map (c : Corpus) (page : Page) (d : ℚ) :
    transition_model c page d = c.pages.map fun q =>
      (q, if c.links page ≠ ∅ then
            (1 - d) / (c.pages.length : ℚ) +
              (if q ∈ c.links page then d / ((c.links page).card : ℚ) else 0)
          else 1 / (c.pages.length : ℚ)) := by
  by_cases h : c.links page = ∅
  · simp [transition_model, h]
  · simp [transition_model, h]

/-- The values of `transition_model` sum to exactly 1 whenever the corpus is
a nonempty dict and the current page's out-links lie among its keys. -/
lemma transition_model_sum (c : Corpus) (page : Page) (d : ℚ)
    (hne : c.pages ≠ []) (hnd : c.pages.Nodup)
    (hsub : c.links page ⊆ c.pages.toFinset) :
    tableSum (transition_model c page d) = 1 := by
  have h0 : 0 < c.pages.length := List.length_pos.mpr hne
  have hN : ((c.pages.length : ℚ)) ≠ 0 := by positivity
  rw [transition_model_eq_map, tableSum_map_self, ← List.sum_toFinset _ hnd]
  by_cases h : c.links page = ∅
  · simp only [h, ne_eq, not_true_eq_false, if_false]
    rw [Finset.sum_const, List.toFinset_card_of_nodup hnd, nsmul_eq_mul]
    field_simp
  · simp only [ne_eq, h, not_false_eq_true, if_true]
    have hL : ((c.links page).card : ℚ) ≠ 0 := by
      have : 0 < (c.links page).card :=
        Finset.card_pos.mpr (Finset.nonempty_iff_ne_empty.mpr h)
      positivity
    rw [Finset.sum_add_distrib, Finset.sum_const, List.toFinset_card_of_nodup hnd,
      Finset.sum_ite_mem, Finset.inter_eq_right.mpr hsub, Finset.sum_const,
      nsmul_eq_mul, nsmul_eq_mul]
    field_simp

/-- Every value of `transition_model` is non-negative when `0 ≤ d ≤ 1`. -/
lemma transition_model_nonneg (c : Corpus) (page : Page) (d : ℚ)
    (h0 : 0 ≤ d) (h1 : d ≤ 1) :
    ∀ x ∈ transition_model c page d, 0 ≤ x.2 := by
  intro x hx
  rw [transition_model_eq_map] at hx
  obtain ⟨q, _, rfl⟩ := List.mem_map.mp hx
  dsimp only
  split
  · refine add_nonneg (div_nonneg (by linarith) (by positivity)) ?_
    split
    · exact div_nonneg h0 (by positivity)
    · exact le_refl 0
  · positivity

/-- One update pass of `iterate_pagerank` maps a rank dict whose keys are
the corpus keys and whose values sum to 1 to a dict whose values again sum
to exactly 1, for any damping factor. -/
lemma iterPass_sum (c : Corpus) (d : ℚ) (pr : Table)
    (hne : c.pages ≠ []) (hnd : c.pages.Nodup)
    (hsub : ∀ q ∈ c.pages, c.links q ⊆ c.pages.toFinset)
    (hkeys : keysOf pr = c.pages) (hsum : tableSum pr = 1) :
    tableSum (iterPass c d pr) = 1 := by
  have h0 : 0 < c.pages.length := List.length_pos.mpr hne
  have hN : ((c.pages.length : ℚ)) ≠ 0 := by positivity
  have step1 : tableSum (iterPass c d pr) =
      ∑ p ∈ c.pages.toFinset, newRankOf c d pr p := by
    rw [iterPass, tableSum_map_self, ← List.sum_toFinset _ hnd]
  have step2 : ∀ p : Page, newRankOf c d pr p =
      (1 - d) / (c.pages.length : ℚ) + d * ∑ q ∈ c.pages.toFinset,
        ((if p ∈ c.links q then getD pr q / ((c.links q).card : ℚ) else 0) +
          (if c.links q = ∅ then getD pr q / (c.pages.length : ℚ) else 0)) := by
    intro p
    rw [newRankOf, ← List.sum_toFinset _ hnd]
  have key : ∀ q ∈ c.pages.toFinset, (∑ p ∈ c.pages.toFinset,
      ((if p ∈ c.links q then getD pr q / ((c.links q).card : ℚ) else 0) +
        (if c.links q = ∅ then getD pr q / (c.pages.length : ℚ) else 0))) =
      getD pr q := by
    intro q hq
    by_cases hq0 : c.links q = ∅
    · simp only [hq0, Finset.not_mem_empty, if_false, zero_add, if_true]
      rw [Finset.sum_const, List.toFinset_card_of_nodup hnd, nsmul_eq_mul]
      field_simp
    · have hL : ((c.links q).card : ℚ) ≠ 0 := by
        have : 0 < (c.links q).card :=
          Finset.card_pos.mpr (Finset.nonempty_iff_ne_empty.mpr hq0)
        positivity
      simp only [hq0, if_false, add_zero]
      rw [Finset.sum_ite_mem,
        Finset.inter_eq_right.mpr (hsub q (List.mem_toFinset.mp hq)),
        Finset.sum_const, nsmul_eq_mul]
      field_simp
  have total : ∑ q ∈ c.pages.toFinset, getD pr q = 1 := by
    rw [List.sum_toFinset _ hnd]
    calc (c.pages.map (getD pr)).sum
        = ((keysOf pr).map (getD pr)).sum := by rw [hkeys]
      _ = tableSum pr := sum_getD pr (by rw [hkeys]; exact hnd)
      _ = 1 := hsum
  rw [step1]
  simp only [step2]
  rw [Finset.sum_add_distrib, Finset.sum_const, List.toFinset_card_of_nodup hnd,
    nsmul_eq_mul, ← Finset.mul_sum, Finset.sum_comm, Finset.sum_congr rfl key,
    total]
  field_simp

/-- C4: for every non-empty graph whose out-link sets are subsets of its key
set, every page that is a key, and every damping factor in [0,1], every
value of the distribution returned by `transition_model` is non-negative and
the values sum to exactly 1. -/
theorem transition_model_valid_distribution (c : Corpus) (page : Page) (d : ℚ)
    (hne : c.pages ≠ []) (hnd : c.pages.Nodup)
    (hsub : ∀ q ∈ c.pages, c.links q ⊆ c.pages.toFinset)
    (hpage : page ∈ c.pages) (h0 : 0 ≤ d) (h1 : d ≤ 1) :
    (∀ x ∈ transition_model c page d, 0 ≤ x.2) ∧
      tableSum (transition_model c page d) = 1 :=
  ⟨transition_model_nonneg c page d h0 h1,
    transition_model_sum c page d hne hnd (hsub page hpage)⟩

/-- Witness for C4 at the sink-pair corpus, damping 0.85. -/
theorem transition_model_valid_distribution_witness :
    (∀ x ∈ transition_model corpusAB "B" (17/20), 0 ≤ x.2) ∧
      tableSum (transition_model corpusAB "B" (17/20)) = 1 :=
  transition_model_valid_distribution corpusAB "B" (17/20) (by decide)
    (by decide) (by decide) (by decide) (by norm_num) (by norm_num)

/-- C8: for every non-empty graph, key `page` and damping factor, the
distribution returned by `transition_model` has exactly the corpus's key
list: every key appears and no others do. -/
theorem transition_model_keys (c : Corpus) (page : Page) (d : ℚ)
    (hne : c.pages ≠ []) (hpage : page ∈ c.pages) :
    keysOf (transition_model c page d) = c.pages := by
  rw [transition_model_eq_map, keysOf_map_self]

/-- Witness for C8 at the sink-pair corpus. -/
theorem transition_model_keys_witness :
    keysOf (transition_model corpusAB "A" (17/20)) = corpusAB.pages :=
  transition_model_keys corpusAB "A" (17/20) (by decide) (by decide)

/-- C9: a single update pass of `iterate_pagerank` preserves total rank
mass: for a non-empty graph with unique keys whose out-link sets lie among
its keys, any damping factor in [0,1], and any rank dict over the corpus
keys summing to exactly 1, the freshly computed ranks also sum to exactly
1. -/
theorem iterPass_preserves_total_rank (c : Corpus) (d : ℚ) (pr : Table)
    (hne : c.pages ≠ []) (hnd : c.pages.Nodup)
    (hsub : ∀ q ∈ c.pages, c.links q ⊆ c.pages.toFinset)
    (h0 : 0 ≤ d) (h1 : d ≤ 1)
    (hkeys : keysOf pr = c.pages) (hsum : tableSum pr = 1) :
    tableSum (iterPass c d pr) = 1 :=
  iterPass_sum c d pr hne hnd hsub hkeys hsum

/-- Witness for C9: the pass applied to the uniform initial ranks of the
sink-pair corpus. -/
theorem iterPass_preserves_total_rank_witness :
    tableSum (iterPass corpusAB (17/20) (initRank corpusAB)) = 1 :=
  iterPass_preserves_total_rank corpusAB (17/20) (initRank corpusAB)
    (by decide) (by decide) (by decide) (by norm_num) (by norm_num)
    (by decide) (by norm_num [tableSum, initRank, corpusAB])

/-- C2 counterexample: on the corpus `{A: set(), B: {A}}` with damping 0.85
the rank `iterate_pagerank` returns for `A` is not 0.5 (it is 0.7125). -/
theorem iterate_sink_pair_A_not_half :
    getD (iterate_pagerank corpusAB (17/20)) "A" ≠ 1/2 := by
  have h1 : getD (iterate_pagerank corpusAB (17/20)) "A" = 57/80 := by
    norm_num [iterate_pagerank, iterPass, newRankOf, initRank, getD, corpusAB,
      (show ¬("A" : String) = "B" by decide), (show ¬("B" : String) = "A" by decide)]
  rw [h1]
  norm_num

/-- C2 amended: on the corpus `{A: set(), B: {A}}` with damping 0.85,
`iterate_pagerank` returns rank 0.7125 for `A` and 0.2875 for `B` (the
result of its single update pass, in exact arithmetic). -/
theorem iterate_sink_pair_values :
    iterate_pagerank corpusAB (17/20) = [("A", 57/80), ("B", 23/80)] := by
  norm_num [iterate_pagerank, iterPass, newRankOf, initRank, getD, corpusAB,
    (show ¬("A" : String) = "B" by decide), (show ¬("B" : String) = "A" by decide)]

/-- C1: the code returns the result of its very first update pass even
though on `{A: set(), B: {A}}` with damping 0.85 that pass moved both ranks
by 0.2125 > 0.001, so the returned table is not within the stated tolerance
of the ranks it replaced — the loop does not repeat until convergence. -/
theorem iterate_returns_first_pass_unconverged :
    iterate_pagerank corpusAB (17/20) =
        iterPass corpusAB (17/20) (initRank corpusAB) ∧
      ¬ passConverged corpusAB (initRank corpusAB)
          (iterate_pagerank corpusAB (17/20)) := by
  refine ⟨rfl, fun h => ?_⟩
  have hA := h "A" (by decide)
  have h1 : getD (iterate_pagerank corpusAB (17/20)) "A" = 57/80 := by
    norm_num [iterate_pagerank, iterPass, newRankOf, initRank, getD, corpusAB,
      (show ¬("A" : String) = "B" by decide), (show ¬("B" : String) = "A" by decide)]
  have h2 : getD (initRank corpusAB) "A" = 1/2 := by
    norm_num [initRank, getD, corpusAB,
      (show ¬("A" : String) = "B" by decide), (show ¬("B" : String) = "A" by decide)]
  rw [h1, h2, abs_le] at hA
  exact absurd hA.2 (by norm_num)

/-- The averaging update applied to a dict in mapped form stays in mapped
form. -/
lemma avgUpdate_map_self (l : List Page) (f : Page → ℚ) (i : ℕ) (cur : Table) :
    avgUpdate i (l.map fun q => (q, f q)) cur =
      l.map fun q => (q, (((i : ℚ) - 1) * f q + getD cur q) / (i : ℚ)) := by
  simp [avgUpdate, List.map_map, Function.comp_def]

/-- Summing the lookups of a transition distribution over the corpus keys
gives 1. -/
lemma sum_getD_transition (c : Corpus) (page : Page) (d : ℚ)
    (hne : c.pages ≠ []) (hnd : c.pages.Nodup)
    (hsub : c.links page ⊆ c.pages.toFinset) :
    (c.pages.map fun p => getD (transition_model c page d) p).sum = 1 := by
  have h := transition_model_eq_map c page d
  rw [h, sum_getD_map_self, ← tableSum_map_self, ← h]
  exact transition_model_sum c page d hne hnd hsub

/-- The value sum after one averaging update against a transition
distribution: `((i-1)·S + 1)/i` where `S` was the previous value sum. -/
lemma avgUpdate_trans_sum (c : Corpus) (d : ℚ)
    (hne : c.pages ≠ []) (hnd : c.pages.Nodup) (k : ℕ) (f : Page → ℚ)
    (page : Page) (hsub : c.links page ⊆ c.pages.toFinset) :
    tableSum (avgUpdate k (c.pages.map fun q => (q, f q))
        (transition_model c page d)) =
      (((k : ℚ) - 1) * (c.pages.map f).sum + 1) / (k : ℚ) := by
  rw [avgUpdate_map_self, tableSum_map_self, ← List.sum_toFinset _ hnd]
  have hcur : ∑ q ∈ c.pages.toFinset, getD (transition_model c page d) q = 1 := by
    rw [List.sum_toFinset _ hnd]
    exact sum_getD_transition c page d hne hnd hsub
  have hf : ∑ q ∈ c.pages.toFinset, f q = (c.pages.map f).sum :=
    List.sum_toFinset _ hnd
  rw [← Finset.sum_div, Finset.sum_add_distrib, ← Finset.mul_sum, hf, hcur]

/-- Once the running table is a dict over the corpus keys whose values sum
to 1, every further averaging step of the sampling loop keeps the sum at
exactly 1. -/
lemma sampleSteps_sum_one (c : Corpus) (d : ℚ) (picks : ℕ → Table → Page)
    (hne : c.pages ≠ []) (hnd : c.pages.Nodup)
    (hsub : ∀ q ∈ c.pages, c.links q ⊆ c.pages.toFinset)
    (hpicks : ∀ i t, picks i t ∈ c.pages) :
    ∀ (m k : ℕ) (f : Page → ℚ) (page : Page), 1 ≤ k → page ∈ c.pages →
      (c.pages.map f).sum = 1 →
      tableSum (sampleSteps c d picks (List.range' k m)
        (c.pages.map fun q => (q, f q), page)).1 = 1 := by
  intro m
  induction m with
  | zero =>
    intro k f page _ _ hsum
    simpa [sampleSteps, tableSum_map_self] using hsum
  | succ m ih =>
    intro k f page hk hp hsum
    have hkQ : ((k : ℚ)) ≠ 0 := Nat.cast_ne_zero.mpr (by omega)
    rw [List.range'_succ]
    simp only [sampleSteps]
    rw [avgUpdate_map_self]
    refine ih (k + 1) _ _ (by omega) (hpicks _ _) ?_
    have h := avgUpdate_trans_sum c d hne hnd k f page (hsub page hp)
    rw [avgUpdate_map_self, tableSum_map_self] at h
    rw [h, hsum]
    field_simp

/-- The value sum of `sample_pagerank` is exactly 1 for any `n ≥ 2` and any
realization of the random draws: the step at `i = 1` installs a transition
distribution, and all later steps preserve the sum. -/
lemma sample_pagerank_sum_aux (c : Corpus) (d : ℚ) (n : ℕ) (start : Page)
    (picks : ℕ → Table → Page)
    (hne : c.pages ≠ []) (hnd : c.pages.Nodup)
    (hsub : ∀ q ∈ c.pages, c.links q ⊆ c.pages.toFinset)
    (hstart : start ∈ c.pages) (hpicks : ∀ i t, picks i t ∈ c.pages)
    (hn : 2 ≤ n) :
    tableSum (sample_pagerank c d n start picks) = 1 := by
  obtain ⟨m, rfl⟩ : ∃ m, n = m + 2 := ⟨n - 2, by omega⟩
  unfold sample_pagerank
  have hr : (m + 2) - 1 = m + 1 := rfl
  rw [hr, List.range'_succ, zeroTable]
  simp only [sampleSteps]
  rw [avgUpdate_map_self]
  refine sampleSteps_sum_one c d picks hne hnd hsub hpicks m 2 _ _ (by omega)
    (hpicks _ _) ?_
  have h := avgUpdate_trans_sum c d hne hnd 1 (fun _ => (0 : ℚ)) start
    (hsub start hstart)
  rw [avgUpdate_map_self, tableSum_map_self] at h
  rw [h]
  norm_num

/-- C3 (amended to `sampleCount ≥ 2`): for every non-empty well-formed
graph, damping factor in [0,1], `n ≥ 2` and any realization of the random
draws, the rank table returned by `sample_pagerank` has values summing to
(exactly, hence approximately) 1. -/
theorem sample_pagerank_sums_to_one (c : Corpus) (d : ℚ) (n : ℕ) (start : Page)
    (picks : ℕ → Table → Page)
    (hne : c.pages ≠ []) (hnd : c.pages.Nodup)
    (hsub : ∀ q ∈ c.pages, c.links q ⊆ c.pages.toFinset)
    (h0 : 0 ≤ d) (h1 : d ≤ 1)
    (hstart : start ∈ c.pages) (hpicks : ∀ i t, picks i t ∈ c.pages)
    (hn : 2 ≤ n) :
    tableSum (sample_pagerank c d n start picks) = 1 :=
  sample_pagerank_sum_aux c d n start picks hne hnd hsub hstart hpicks hn

/-- Witness for C3 on the sink-pair corpus with `n = 3`. -/
theorem sample_pagerank_sums_to_one_witness :
    tableSum (sample_pagerank corpusAB (17/20) 3 "A" (fun _ _ => "B")) = 1 :=
  sample_pagerank_sums_to_one corpusAB (17/20) 3 "A" (fun _ _ => "B")
    (by decide) (by decide) (by decide) (by norm_num) (by norm_num)
    (by decide) (fun _ _ => show "B" ∈ corpusAB.pages by decide) (by norm_num)

/-- C3 counterexample: with `sampleCount = 1` (allowed by the claim's
precondition `sampleCount ≥ 1`) the loop body never runs and the returned
table is the all-zero table, whose values sum to 0, not (approximately) 1. -/
theorem sample_pagerank_one_sample_sum_zero :
    tableSum (sample_pagerank corpusA (17/20) 1 "A" (fun _ _ => "A")) = 0 := by
  norm_num [sample_pagerank, sampleSteps, zeroTable, tableSum, corpusA]

/-- Modelled from the spec (§4.2, the per-step contract C5 quotes): one step
of the sampling algorithm — compute the current node's TransitionModel
distribution, set every node's running average to
`((step−1)·old_average + step_distribution_value)/step`, then draw the next
current node by weighted random choice (`picks`) over all nodes with the
updated running-average table as the weights. -/
def specSampleStep (c : Corpus) (d : ℚ) (picks : ℕ → Table → Page)
    (s : Table × Page) (i : ℕ) : Table × Page :=
  let dist := transition_model c s.2 d
  let t := c.pages.map fun p =>
    (p, (((i : ℚ) - 1) * getD s.1 p + getD dist p) / (i : ℚ))
  (t, picks i t)

/-- The source's sampling loop, started on a dict over the corpus keys,
computes exactly the fold of the spec's per-step contract. -/
lemma sampleSteps_eq_foldl (c : Corpus) (d : ℚ) (picks : ℕ → Table → Page) :
    ∀ (is : List ℕ) (f : Page → ℚ) (page : Page),
      sampleSteps c d picks is (c.pages.map fun q => (q, f q), page) =
        is.foldl (specSampleStep c d picks) (c.pages.map fun q => (q, f q), page) := by
  intro is
  induction is with
  | nil => intro f page; rfl
  | cons i is ih =>
    intro f page
    simp only [sampleSteps, List.foldl_cons, specSampleStep]
    have key : avgUpdate i (c.pages.map fun q => (q, f q))
        (transition_model c page d) = c.pages.map fun p =>
          (p, (((i : ℚ) - 1) * getD (c.pages.map fun q => (q, f q)) p +
            getD (transition_model c page d) p) / (i : ℚ)) := by
      rw [avgUpdate_map_self]
      refine List.map_congr_left fun p hp => ?_
      rw [getD_map_self _ _ _ hp]
    rw [key]
    exact ih _ _

/-- C5: `sample_pagerank` performs exactly `n − 1` steps, each of which
computes the current node's transition distribution, replaces every node's
running average with `((i−1)·old + value)/i`, and then draws the next node
with the updated running-average table as the weights: it equals the fold
of the spec's per-step contract over the step indices `1, ..., n−1`. -/
theorem sample_pagerank_follows_spec_steps (c : Corpus) (d : ℚ) (n : ℕ)
    (start : Page) (picks : ℕ → Table → Page)
    (hne : c.pages ≠ []) (hn : 2 ≤ n) :
    sample_pagerank c d n start picks =
        ((List.range' 1 (n - 1)).foldl (specSampleStep c d picks)
          (zeroTable c, start)).1 ∧
      (List.range' 1 (n - 1)).length = n - 1 := by
  constructor
  · unfold sample_pagerank
    rw [zeroTable, sampleSteps_eq_foldl]
  · simp

/-- Witness for C5 on the sink-pair corpus with `n = 3`. -/
theorem sample_pagerank_follows_spec_steps_witness :
    sample_pagerank corpusAB (17/20) 3 "A" (fun _ _ => "B") =
        ((List.range' 1 (3 - 1)).foldl
          (specSampleStep corpusAB (17/20) (fun _ _ => "B"))
          (zeroTable corpusAB, "A")).1 ∧
      (List.range' 1 (3 - 1)).length = 3 - 1 :=
  sample_pagerank_follows_spec_steps corpusAB (17/20) 3 "A" (fun _ _ => "B")
    (by decide) (by decide)

/-- C10: the returned table of `sample_pagerank` sums to exactly 1 in exact
arithmetic, for any realization of the draws: the averaging step at `i = 1`
replaces the all-zero table with the current transition distribution
itself, every averaging step at `i ≥ 1` turns a table summing to 1 into a
table summing to 1, and the final result sums to 1. -/
theorem sample_pagerank_sum_mechanism (c : Corpus) (d : ℚ) (n : ℕ)
    (start : Page) (picks : ℕ → Table → Page)
    (hne : c.pages ≠ []) (hnd : c.pages.Nodup)
    (hsub : ∀ q ∈ c.pages, c.links q ⊆ c.pages.toFinset)
    (h0 : 0 ≤ d) (h1 : d ≤ 1)
    (hstart : start ∈ c.pages) (hpicks : ∀ i t, picks i t ∈ c.pages)
    (hn : 2 ≤ n) :
    avgUpdate 1 (zeroTable c) (transition_model c start d) =
        transition_model c start d ∧
      (∀ (k : ℕ) (f : Page → ℚ) (page : Page), 1 ≤ k → page ∈ c.pages →
        (c.pages.map f).sum = 1 →
        tableSum (avgUpdate k (c.pages.map fun q => (q, f q))
          (transition_model c page d)) = 1) ∧
      tableSum (sample_pagerank c d n start picks) = 1 := by
  refine ⟨?_, ?_, sample_pagerank_sum_aux c d n start picks hne hnd hsub
    hstart hpicks hn⟩
  · have h := transition_model_eq_map c start d
    rw [zeroTable, avgUpdate_map_self, h]
    refine List.map_congr_left fun p hp => ?_
    rw [getD_map_self _ _ _ hp]
    norm_num
  · intro k f page hk hp hsum
    have hkQ : ((k : ℚ)) ≠ 0 := Nat.cast_ne_zero.mpr (by omega)
    have h := avgUpdate_trans_sum c d hne hnd k f page (hsub page hp)
    rw [h, hsum]
    field_simp

/-- Witness for C10 on the sink-pair corpus with `n = 3`. -/
theorem sample_pagerank_sum_mechanism_witness :
    avgUpdate 1 (zeroTable corpusAB)
        (transition_model corpusAB "A" (17/20)) =
        transition_model corpusAB "A" (17/20) ∧
      (∀ (k : ℕ) (f : Page → ℚ) (page : Page), 1 ≤ k → page ∈ corpusAB.pages →
        (corpusAB.pages.map f).sum = 1 →
        tableSum (avgUpdate k (corpusAB.pages.map fun q => (q, f q))
          (transition_model corpusAB page (17/20))) = 1) ∧
      tableSum (sample_pagerank corpusAB (17/20) 3 "A" (fun _ _ => "B")) = 1 :=
  sample_pagerank_sum_mechanism corpusAB (17/20) 3 "A" (fun _ _ => "B")
    (by decide) (by decide) (by decide) (by norm_num) (by norm_num)
    (by decide) (fun _ _ => show "B" ∈ corpusAB.pages by decide) (by decide)

/-- C6 counterexample: on the empty corpus, `sample_pagerank` fails with the
`IndexError` of `random.choice` on an empty sequence — not with an explicit
"empty corpus" invalid-input error — and `iterate_pagerank` does not fail at
all: it returns the empty dict (its loops never execute, so no division by
zero and no error of any kind occurs). -/
theorem empty_corpus_behavior_cex :
    sample_pagerank_run corpusEmpty (17/20) 5 (fun _ => "A") (fun _ _ => "A") =
        .error .indexError ∧
      iterate_pagerank_run corpusEmpty (17/20) = .ok [] :=
  ⟨rfl, rfl⟩

/-- C6 amended: on the empty graph, for every damping factor and sample
count, `sample_pagerank` raises `IndexError` from `random.choice` on the
empty key list and `iterate_pagerank` returns the empty rank table without
raising; neither produces an explicit "empty corpus" error and neither
divides by zero. -/
theorem empty_corpus_behavior (d : ℚ) (n : ℕ) (choose : List Page → Page)
    (picks : ℕ → Table → Page) :
    sample_pagerank_run corpusEmpty d n choose picks = .error .indexError ∧
      iterate_pagerank_run corpusEmpty d = .ok [] :=
  ⟨rfl, rfl⟩

/-- C7 counterexample: `sample_pagerank` called with `sampleCount = 0 < 1`
on the one-page corpus raises nothing — it returns the all-zero table. -/
theorem sample_zero_count_cex :
    sample_pagerank_run corpusA (17/20) 0 (fun _ => "A") (fun _ _ => "A") =
      .ok [("A", 0)] := rfl

/-- C7 amended: for every graph with at least one page and every damping
factor, calling `sample_pagerank` with `sampleCount < 1` does not raise an
invalid-argument error; `range(1, n)` is empty, so it performs no steps and
returns the all-zero rank table. -/
theorem sample_low_count_returns_zero_table (c : Corpus) (d : ℚ) (n : ℕ)
    (choose : List Page → Page) (picks : ℕ → Table → Page)
    (hn : n < 1) (hne : c.pages ≠ []) :
    sample_pagerank_run c d n choose picks = .ok (zeroTable c) := by
  obtain rfl : n = 0 := by omega
  unfold sample_pagerank_run
  rw [if_neg hne]
  rfl

/-- Witness for C7's amended statement at the one-page corpus. -/
theorem sample_low_count_returns_zero_table_witness :
    sample_pagerank_run corpusA (17/20) 0 (fun _ => "A") (fun _ _ => "A") =
      .ok (zeroTable corpusA) :=
  sample_low_count_returns_zero_table corpusA (17/20) 0 (fun _ => "A")
    (fun _ _ => "A") (by decide) (by decide)
